import Mathlib

/-!
Verification of the link-graph analysis and PageRank program.

The development shallowly embeds the program's pure core:

* `parse_outgoing_links` (src/analysis.py): line-oriented link extraction.
* the aggregation loop shared by `compute_in_out_counts_streaming` and
  `compute_in_out_counts_download_then_parse` (src/analysis.py), with the
  non-deterministic completion order of the thread pools made explicit as an
  `order : List String` parameter (a permutation of the node list);
* `iterative_pagerank` (src/pagerank.py), with real arithmetic modelled by `ℚ`
  and Python dicts modelled by total functions (default value `0` / `[]`),
  and the non-fatal warning print modelled as a returned `Bool` flag.
-/

/-! ## Python string primitives used by `parse_outgoing_links` -/

/-- The whitespace characters recognised by Python's `str.strip` and by the
regex class `\s` (restricted to ASCII, which is all the program's data uses). -/
def isPySpace (c : Char) : Bool :=
  c == ' ' || c == '\t' || c == '\n' || c == '\r' || c == '\x0b' || c == '\x0c'

/-- Python `str.strip()`: drop leading and trailing whitespace. -/
def pyStrip (s : String) : String :=
  String.mk (((s.data.dropWhile isPySpace).reverse.dropWhile isPySpace).reverse)

/-- Worker for `splitlines`: accumulates the current line (reversed) and splits
at `\n`, `\r\n` and `\r`, mirroring Python `str.splitlines` on ASCII input
(a trailing terminator does not produce a trailing empty line). -/
def splitlinesAux : List Char → List Char → List String
  | [], [] => []
  | [], acc => [String.mk acc.reverse]
  | '\r' :: '\n' :: rest, acc => String.mk acc.reverse :: splitlinesAux rest []
  | '\r' :: rest, acc => String.mk acc.reverse :: splitlinesAux rest []
  | '\n' :: rest, acc => String.mk acc.reverse :: splitlinesAux rest []
  | c :: rest, acc => splitlinesAux rest (c :: acc)

/-- Python `str.splitlines()` (ASCII line terminators). -/
def splitlines (s : String) : List String :=
  splitlinesAux s.data []

/-- The group `(.*?)"` of the regex `HREF\s*=\s*"(.*?)"`: the (possibly empty)
run of non-newline characters up to the first closing quote; `none` when no
closing quote follows on the line. -/
def takeUntilQuote : List Char → Option (List Char)
  | [] => none
  | '"' :: _ => some []
  | '\n' :: _ => none
  | c :: rest => (takeUntilQuote rest).map (fun g => c :: g)

/-- Matches `\s*=\s*"(.*?)"`, the part of `HREF_RE` after the keyword,
returning the captured group. -/
def matchEqQuote : List Char → Option (List Char)
  | '=' :: rest =>
    match rest.dropWhile isPySpace with
    | '"' :: rest2 => takeUntilQuote rest2
    | _ => none
  | _ => none

/-- Attempts to match `HREF_RE = re.compile(r'HREF\s*=\s*"(.*?)"', re.IGNORECASE)`
anchored at the head of the character list, returning the captured group. -/
def matchHrefAt : List Char → Option (List Char)
  | c1 :: c2 :: c3 :: c4 :: rest =>
    if (c1 == 'H' || c1 == 'h') && (c2 == 'R' || c2 == 'r') &&
       (c3 == 'E' || c3 == 'e') && (c4 == 'F' || c4 == 'f') then
      matchEqQuote (rest.dropWhile isPySpace)
    else none
  | _ => none

/-- Model of `HREF_RE.search`: the leftmost match of the pattern, as its captured group. -/
def hrefSearch : List Char → Option (List Char)
  | [] => none
  | c :: rest =>
    match matchHrefAt (c :: rest) with
    | some g => some g
    | none => hrefSearch rest

/-! ## `parse_outgoing_links` (src/analysis.py, lines 25-42)

The Python node set `nodes_set` is modelled as a `List String` used only
through membership. -/

/-- The per-line loop body of `parse_outgoing_links`, over the list of lines. -/
def parseLinesAux : List String → List String → List String
  | [], _ => []
  | l :: ls, ns =>
    let line := pyStrip l
    if line = "" then parseLinesAux ls ns
    else
      match hrefSearch line.data with
      | some g =>
        let target := pyStrip (String.mk g)
        if target ∈ ns then target :: parseLinesAux ls ns else parseLinesAux ls ns
      | none =>
        if line ∈ ns then line :: parseLinesAux ls ns else parseLinesAux ls ns

/-- Model of `parse_outgoing_links(text, nodes_set)` from src/analysis.py. -/
def parse_outgoing_links (text : String) (nodes_set : List String) : List String :=
  parseLinesAux (splitlines text) nodes_set

/-! ### The extraction contract, stated from the specification's words -/

/-- The Link-Extractor contract exactly as the specification words it: scan the
lines in order, skip blank lines, take from each remaining line at most one
candidate — the quoted value of a case-insensitive HREF-style match if the line
contains one, otherwise the trimmed line itself — and keep a candidate only if
it is a member of the node set, preserving order and duplicates. -/
def parse_outgoing_links_claim (text : String) (nodes_set : List String) : List String :=
  (((splitlines text).map pyStrip).filter (fun l => l ≠ "")).filterMap (fun line =>
    let cand :=
      match hrefSearch line.data with
      | some g => String.mk g
      | none => line
    if cand ∈ nodes_set then some cand else none)

/-- The contract as amended: the candidate produced by an HREF-style match is
the TRIMMED quoted value (the code applies `.strip()` to the captured group). -/
def parse_outgoing_links_amended (text : String) (nodes_set : List String) : List String :=
  (((splitlines text).map pyStrip).filter (fun l => l ≠ "")).filterMap (fun line =>
    let cand :=
      match hrefSearch line.data with
      | some g => pyStrip (String.mk g)
      | none => line
    if cand ∈ nodes_set then some cand else none)

/-! ## The fetch-parse pipeline (src/analysis.py, lines 92-243)

Both `compute_in_out_counts_streaming` and
`compute_in_out_counts_download_then_parse` aggregate, for each node `u` (in
the completion order of the concurrent tasks), `out_degree[u] = len(outs)`
followed by `in_counts[v] += 1; in_links[v].append(u)` for each `v` in `outs`.
The embedding makes the completion order an explicit `order` parameter; the
external object store is abstracted as the `listing` result and a `contents`
retrieval map. Dicts are total functions with default `0` / `[]`. -/

/-- The mutable aggregation maps of the pipeline. -/
structure GraphAcc where
  out_degree : String → ℕ
  in_counts : String → ℕ
  in_links : String → List String

/-- The freshly initialised maps `{u: 0}` / `{u: []}`. -/
def emptyGraphAcc : GraphAcc :=
  ⟨fun _ => 0, fun _ => 0, fun _ => []⟩

/-- The inner loop `for v in outs: in_counts[v] += 1; in_links[v].append(u)`. -/
def applyOuts (u : String) (outs : List String) (acc : GraphAcc) : GraphAcc :=
  outs.foldl (fun acc v =>
    { acc with
      in_counts := fun w => if w = v then acc.in_counts v + 1 else acc.in_counts w
      in_links := fun w => if w = v then acc.in_links v ++ [u] else acc.in_links w }) acc

/-- Aggregation of one completed parse result:
`out_degree[u] = len(outs)` then the `in_counts`/`in_links` updates. -/
def processOne (ns : List String) (contents : String → String) (acc : GraphAcc) (u : String) :
    GraphAcc :=
  let outs := parse_outgoing_links (contents u) ns
  applyOuts u outs
    { acc with out_degree := fun w => if w = u then outs.length else acc.out_degree w }

/-- The whole aggregation loop, over the completion order of the tasks. -/
def buildGraph (ns : List String) (contents : String → String) (order : List String) : GraphAcc :=
  order.foldl (processOne ns contents) emptyGraphAcc

/-- Model of `list_nodes_from_bucket`: the listing returned by the object store,
sorted (`nodes.sort()`). -/
def listNodes (listing : List String) : List String :=
  listing.mergeSort (fun a b => decide (a ≤ b))

/-- The node list the pipeline works on: the sorted listing, truncated to the
first `limit_files` entries when a limit is given (`nodes[:limit_files]`). -/
def pipelineNodes (listing : List String) (limit_files : Option ℕ) : List String :=
  match limit_files with
  | none => listNodes listing
  | some k => (listNodes listing).take k

/-- The graph triple plus the node list returned by either pipeline mode. -/
abbrev PipelineResult :=
  List String × (String → ℕ) × (String → ℕ) × (String → List String)

/-- Model of `compute_in_out_counts_streaming(bucket, prefix, limit_files, ...)`:
`order` is the download-completion order in which the aggregation loop consumes
parse results (`for u, parse_future in parse_futures`), a permutation of the
node list.  `none` models the `RuntimeError` raised on an empty listing. -/
def compute_in_out_counts_streaming (listing : List String) (limit_files : Option ℕ)
    (contents : String → String) (order : List String) : Option PipelineResult :=
  if (listNodes listing).isEmpty then none
  else
    let nodes := pipelineNodes listing limit_files
    let acc := buildGraph nodes contents order
    some (nodes, acc.out_degree, acc.in_counts, acc.in_links)

/-- Model of `compute_in_out_counts_download_then_parse(bucket, prefix, limit_files, ...)`:
identical aggregation, with `order` the parse-completion order in which
`as_completed(parse_futures)` yields results, a permutation of the node list. -/
def compute_in_out_counts_download_then_parse (listing : List String) (limit_files : Option ℕ)
    (contents : String → String) (order : List String) : Option PipelineResult :=
  if (listNodes listing).isEmpty then none
  else
    let nodes := pipelineNodes listing limit_files
    let acc := buildGraph nodes contents order
    some (nodes, acc.out_degree, acc.in_counts, acc.in_links)

/-- The reference single-threaded edge count: the total number of links
extracted, summing over the nodes in listing order. -/
def reference_edge_count (nodes : List String) (contents : String → String) : ℕ :=
  (nodes.map (fun u => (parse_outgoing_links (contents u) nodes).length)).sum

/-- Lifts a predicate on pipeline results over the fallible (`Option`) result;
a run that aborted has nothing to satisfy. -/
def onPipelineResult (P : PipelineResult → Prop) : Option PipelineResult → Prop
  | none => True
  | some r => P r

/-- The equivalence the specification demands between the two pipeline modes:
same node list, identical `out_degree` and `in_counts` maps, and `in_links`
lists equal as multisets (i.e. up to permutation); both runs abort together. -/
def pipelineResultsEquiv : Option PipelineResult → Option PipelineResult → Prop
  | some r₁, some r₂ =>
    r₁.1 = r₂.1 ∧ (∀ v, r₁.2.1 v = r₂.2.1 v) ∧ (∀ v, r₁.2.2.1 v = r₂.2.2.1 v) ∧
      ∀ v, (r₁.2.2.2 v).Perm (r₂.2.2.2 v)
  | none, none => True
  | _, _ => False

/-! ## `iterative_pagerank` (src/pagerank.py, lines 5-77)

Real arithmetic is modelled exactly over `ℚ`; score dicts are total functions
(read only at nodes).  The optional progress printing has no effect on the
result and is omitted; the non-fatal warning print of the convergence exit is
modelled as a returned `Bool` flag. -/

/-- The dangling mass: the score held by nodes with `out_degree == 0`
(loop at lines 41-44). -/
def dangling_mass (nodes : List String) (out_degree : String → ℕ) (pr : String → ℚ) : ℚ :=
  ((nodes.filter (fun u => out_degree u == 0)).map pr).sum

/-- One PageRank update (lines 47-56): for each node `a`,
`new_pr[a] = base/n + damping * (s + dangling_share)` where `s` sums
`pr[t]/out_degree[t]` over `t ∈ in_links[a]` with `out_degree[t] > 0`. -/
def pagerankStep (nodes : List String) (in_links : String → List String)
    (out_degree : String → ℕ) (damping base : ℚ) (pr : String → ℚ) : String → ℚ :=
  fun a =>
    base / (nodes.length : ℚ) +
      damping *
        (((in_links a).map
            (fun t => if 0 < out_degree t then pr t / (out_degree t : ℚ) else 0)).sum +
          dangling_mass nodes out_degree pr / (nodes.length : ℚ))

/-- The convergence quantity (lines 59-61): `delta = Σ_u |new_pr[u] - pr[u]|`. -/
def l1delta (nodes : List String) (f g : String → ℚ) : ℚ :=
  (nodes.map (fun u => |f u - g u|)).sum

/-- Model of `sum(pr.values())` over the node list. -/
def sumScores (nodes : List String) (pr : String → ℚ) : ℚ :=
  (nodes.map pr).sum

/-- The iteration loop (lines 37-77): `done` counts performed iterations and
`fuel` the remaining ones, so a call with `fuel = max_iters` and `done = 0`
models `for it in range(1, max_iters + 1)`.  Returns the score map, the
iteration count, and whether the non-~1.0-sum warning was printed.  On the
convergence exit (`delta < tol`) the sum check runs; on fuel exhaustion the
function returns without any check, as the code does at line 77. -/
def pagerankIter (nodes : List String) (in_links : String → List String)
    (out_degree : String → ℕ) (damping base tol : ℚ) :
    (String → ℚ) → ℕ → ℕ → (String → ℚ) × ℕ × Bool
  | pr, done, 0 => (pr, done, false)
  | pr, done, fuel + 1 =>
    if l1delta nodes (pagerankStep nodes in_links out_degree damping base pr) pr < tol then
      (pagerankStep nodes in_links out_degree damping base pr, done + 1,
        decide ((1 : ℚ) / 1000 <
          |sumScores nodes (pagerankStep nodes in_links out_degree damping base pr) - 1|))
    else
      pagerankIter nodes in_links out_degree damping base tol
        (pagerankStep nodes in_links out_degree damping base pr) (done + 1) fuel

/-- The uniform initial score map `{u: 1.0 / n for u in nodes}` (line 32). -/
def pr_init (nodes : List String) : String → ℚ :=
  fun _ => 1 / (nodes.length : ℚ)

/-- Model of `iterative_pagerank(nodes, in_links, out_degree, damping, base, tol_ratio,
max_iters)`.  The empty dict returned for an empty node list is the default
zero map of the embedding. -/
def iterative_pagerank (nodes : List String) (in_links : String → List String)
    (out_degree : String → ℕ) (damping base tol : ℚ) (max_iters : ℕ) :
    (String → ℚ) × ℕ × Bool :=
  if nodes.length = 0 then (fun _ => 0, 0, false)
  else pagerankIter nodes in_links out_degree damping base tol (pr_init nodes) 0 max_iters

/-- The mathematical iteration sequence: scores after `k` update rounds. -/
def scoresAfter (nodes : List String) (in_links : String → List String)
    (out_degree : String → ℕ) (damping base : ℚ) : ℕ → String → ℚ
  | 0 => pr_init nodes
  | k + 1 =>
    pagerankStep nodes in_links out_degree damping base
      (scoresAfter nodes in_links out_degree damping base k)

/-- The delta of iteration `k + 1` (0-indexed `k`): the L1 distance between the
scores after `k` rounds and after `k + 1` rounds. -/
def deltaAt (nodes : List String) (in_links : String → List String)
    (out_degree : String → ℕ) (damping base : ℚ) (k : ℕ) : ℚ :=
  l1delta nodes (scoresAfter nodes in_links out_degree damping base (k + 1))
    (scoresAfter nodes in_links out_degree damping base k)

theorem parseLinesAux_eq_amended (ls : List String) (ns : List String) :
    parseLinesAux ls ns =
      ((ls.map pyStrip).filter (fun l => l ≠ "")).filterMap (fun line =>
        let cand :=
          match hrefSearch line.data with
          | some g => pyStrip (String.mk g)
          | none => line
        if cand ∈ ns then some cand else none) := by
  induction ls with
  | nil => rfl
  | cons l ls ih =>
    simp only [parseLinesAux, List.map_cons, List.filter_cons]
    by_cases hblank : pyStrip l = ""
    · simp [hblank, ih]
    · simp only [hblank, if_neg hblank]
      cases hm : hrefSearch (pyStrip l).data with
      | some g =>
        by_cases hmem : pyStrip (String.mk g) ∈ ns
        · simp [hblank, hm, hmem, ih, List.filterMap_cons]
        · simp [hblank, hm, hmem, ih, List.filterMap_cons]
      | none =>
        by_cases hmem : pyStrip l ∈ ns
        · simp [hblank, hm, hmem, ih, List.filterMap_cons]
        · simp [hblank, hm, hmem, ih, List.filterMap_cons]

/-- C3 (amended): `parse_outgoing_links` realises the line-scanning contract in
which the candidate from an HREF-style match is the trimmed quoted value. -/
theorem parse_outgoing_links_matches_amended_contract (text : String) (nodes_set : List String) :
    parse_outgoing_links text nodes_set = parse_outgoing_links_amended text nodes_set :=
  parseLinesAux_eq_amended (splitlines text) nodes_set

/-- C3 (counterexample): on the line `HREF=" a "` with node set `{"a"}` the code
keeps the trimmed quoted value `"a"`, while the claim's candidate is the
untrimmed quoted value `" a "`, which is not in the set and is dropped; so
`parse_outgoing_links` disagrees with the claim's description. -/
theorem parse_outgoing_links_claim_counterexample :
    parse_outgoing_links "HREF=\" a \"" ["a"] = ["a"] ∧
      parse_outgoing_links_claim "HREF=\" a \"" ["a"] = [] := by decide

/-! ## Generic list-summation helpers -/

theorem sum_map_add {ι M : Type} [AddCommMonoid M] (l : List ι) (f g : ι → M) :
    (l.map (fun x => f x + g x)).sum = (l.map f).sum + (l.map g).sum := by
  induction l with
  | nil => simp
  | cons x l ih =>
    simp only [List.map_cons, List.sum_cons, ih]
    abel

theorem sum_map_zero {ι M : Type} [AddCommMonoid M] (l : List ι) :
    (l.map (fun _ => (0 : M))).sum = 0 := by
  induction l with
  | nil => rfl
  | cons x l ih => simp [ih]

theorem sum_sum_comm {ι κ M : Type} [AddCommMonoid M] (A : List ι) (B : List κ)
    (g : ι → κ → M) :
    (A.map (fun a => (B.map (g a)).sum)).sum = (B.map (fun t => (A.map (fun a => g a t)).sum)).sum := by
  induction A with
  | nil => simp [sum_map_zero]
  | cons a A ih =>
    simp only [List.map_cons, List.sum_cons, ih, sum_map_add (l := B)]

theorem sum_map_ite_eq {α M : Type} [DecidableEq α] [AddCommMonoid M] (nodes : List α)
    (x : α) (f : α → M) (hnd : nodes.Nodup) (hx : x ∈ nodes) :
    (nodes.map (fun t => if x = t then f t else 0)).sum = f x := by
  induction nodes with
  | nil => cases hx
  | cons y ys ih =>
    rcases List.nodup_cons.mp hnd with ⟨hy, hys⟩
    rcases List.mem_cons.mp hx with hxy | hxys
    · subst hxy
      simp only [List.map_cons, List.sum_cons, if_pos rfl]
      have hzero : (ys.map (fun t => if x = t then f t else 0)).sum = 0 := by
        apply List.sum_eq_zero
        intro z hz
        rcases List.mem_map.mp hz with ⟨t, ht, rfl⟩
        have : x ≠ t := fun h => hy (h ▸ ht)
        simp [this]
      simp [hzero]
    · have hxy : x ≠ y := fun h => hy (h ▸ hxys)
      simp only [List.map_cons, List.sum_cons, if_neg hxy, zero_add]
      exact ih hys hxys

theorem sum_map_count_mul {α : Type} [DecidableEq α] (l nodes : List α) (f : α → ℚ)
    (hnd : nodes.Nodup) (hsub : ∀ x ∈ l, x ∈ nodes) :
    (l.map f).sum = (nodes.map (fun t => (l.count t : ℚ) * f t)).sum := by
  induction l with
  | nil => simp [sum_map_zero]
  | cons x l ih =>
    have hx : x ∈ nodes := hsub x (List.mem_cons_self x l)
    have hsub' : ∀ y ∈ l, y ∈ nodes := fun y hy => hsub y (List.mem_cons_of_mem _ hy)
    simp only [List.map_cons, List.sum_cons, ih hsub']
    have hcount : ∀ t : α, ((x :: l).count t : ℚ) * f t =
        (l.count t : ℚ) * f t + (if x = t then f t else 0) := by
      intro t
      by_cases hxt : x = t
      · subst hxt
        simp [List.count_cons, add_mul]
      · have : (x == t) = false := beq_false_of_ne hxt
        simp [List.count_cons, this, hxt]
    calc f x + (nodes.map (fun t => (l.count t : ℚ) * f t)).sum
        = (nodes.map (fun t => (l.count t : ℚ) * f t)).sum +
            (nodes.map (fun t => if x = t then f t else 0)).sum := by
          rw [sum_map_ite_eq nodes x f hnd hx]; ring
      _ = (nodes.map (fun t => ((x :: l).count t : ℚ) * f t)).sum := by
          rw [← sum_map_add]
          exact (List.map_congr_left (fun t _ => (hcount t).symm)).symm ▸ rfl

theorem sum_map_count_len {α : Type} [DecidableEq α] (l nodes : List α)
    (hnd : nodes.Nodup) (hsub : ∀ x ∈ l, x ∈ nodes) :
    (nodes.map (fun t => l.count t)).sum = l.length := by
  induction l with
  | nil => simp
  | cons x l ih =>
    have hx : x ∈ nodes := hsub x (List.mem_cons_self x l)
    have hsub' : ∀ y ∈ l, y ∈ nodes := fun y hy => hsub y (List.mem_cons_of_mem _ hy)
    have hcount : ∀ t : α, (x :: l).count t = l.count t + (if x = t then 1 else 0) := by
      intro t
      by_cases hxt : x = t
      · subst hxt; simp [List.count_cons]
      · have : (x == t) = false := beq_false_of_ne hxt
        simp [List.count_cons, this, hxt]
    calc (nodes.map (fun t => (x :: l).count t)).sum
        = (nodes.map (fun t => l.count t + (if x = t then 1 else 0))).sum := by
          exact List.map_congr_left (fun t _ => hcount t) ▸ rfl
      _ = (nodes.map (fun t => l.count t)).sum +
            (nodes.map (fun t => if x = t then (1 : ℕ) else 0)).sum := sum_map_add _ _ _
      _ = l.length + 1 := by
          rw [ih hsub', sum_map_ite_eq nodes x (fun _ => (1 : ℕ)) hnd hx]
      _ = (x :: l).length := by simp [Nat.add_comm]

/-! ## Closed forms for the aggregation loop -/

theorem applyOuts_out_degree (u : String) (outs : List String) (acc : GraphAcc) :
    (applyOuts u outs acc).out_degree = acc.out_degree := by
  induction outs generalizing acc with
  | nil => rfl
  | cons v outs ih => exact ih _

theorem applyOuts_in_counts (u : String) (outs : List String) (acc : GraphAcc) (w : String) :
    (applyOuts u outs acc).in_counts w = acc.in_counts w + outs.count w := by
  induction outs generalizing acc with
  | nil => simp [applyOuts]
  | cons v outs ih =>
    show (applyOuts u outs _).in_counts w = _
    rw [ih]
    by_cases hwv : w = v
    · subst hwv
      simp [List.count_cons, Nat.add_assoc, Nat.add_comm]
    · have : (v == w) = false := beq_false_of_ne (Ne.symm hwv)
      simp [hwv, List.count_cons, this]

theorem applyOuts_in_links (u : String) (outs : List String) (acc : GraphAcc) (w : String) :
    (applyOuts u outs acc).in_links w = acc.in_links w ++ List.replicate (outs.count w) u := by
  induction outs generalizing acc with
  | nil => simp [applyOuts]
  | cons v outs ih =>
    show (applyOuts u outs _).in_links w = _
    rw [ih]
    by_cases hwv : w = v
    · subst hwv
      simp [List.count_cons, List.replicate_succ, List.append_assoc]
    · have : (v == w) = false := beq_false_of_ne (Ne.symm hwv)
      simp [hwv, List.count_cons, this]

theorem foldl_processOne_out_degree (ns : List String) (c : String → String)
    (order : List String) (acc : GraphAcc) (w : String) :
    (order.foldl (processOne ns c) acc).out_degree w =
      if w ∈ order then (parse_outgoing_links (c w) ns).length else acc.out_degree w := by
  induction order generalizing acc with
  | nil => simp
  | cons u order ih =>
    simp only [List.foldl_cons, ih]
    by_cases hmem : w ∈ order
    · simp [hmem]
    · simp only [hmem, if_neg hmem, List.mem_cons]
      by_cases hwu : w = u
      · subst hwu
        simp [processOne, applyOuts_out_degree]
      · simp [hwu, processOne, applyOuts_out_degree]

theorem foldl_processOne_in_counts (ns : List String) (c : String → String)
    (order : List String) (acc : GraphAcc) (w : String) :
    (order.foldl (processOne ns c) acc).in_counts w =
      acc.in_counts w + (order.map (fun u => (parse_outgoing_links (c u) ns).count w)).sum := by
  induction order generalizing acc with
  | nil => simp
  | cons u order ih =>
    simp only [List.foldl_cons, ih, List.map_cons, List.sum_cons]
    show _ + _ = _
    rw [processOne, applyOuts_in_counts]
    show acc.in_counts w + _ + _ = _
    omega

theorem foldl_processOne_in_links (ns : List String) (c : String → String)
    (order : List String) (acc : GraphAcc) (w : String) :
    (order.foldl (processOne ns c) acc).in_links w =
      acc.in_links w ++
        order.flatMap (fun u => List.replicate ((parse_outgoing_links (c u) ns).count w) u) := by
  induction order generalizing acc with
  | nil => simp
  | cons u order ih =>
    simp only [List.foldl_cons, ih, List.flatMap_cons]
    rw [processOne, applyOuts_in_links]
    show acc.in_links w ++ _ ++ _ = _
    rw [List.append_assoc]

theorem buildGraph_out_degree (ns : List String) (c : String → String) (order : List String)
    (w : String) :
    (buildGraph ns c order).out_degree w =
      if w ∈ order then (parse_outgoing_links (c w) ns).length else 0 :=
  foldl_processOne_out_degree ns c order emptyGraphAcc w

theorem buildGraph_in_counts (ns : List String) (c : String → String) (order : List String)
    (w : String) :
    (buildGraph ns c order).in_counts w =
      (order.map (fun u => (parse_outgoing_links (c u) ns).count w)).sum := by
  have h := foldl_processOne_in_counts ns c order emptyGraphAcc w
  simpa [buildGraph, emptyGraphAcc] using h

theorem buildGraph_in_links (ns : List String) (c : String → String) (order : List String)
    (w : String) :
    (buildGraph ns c order).in_links w =
      order.flatMap (fun u => List.replicate ((parse_outgoing_links (c u) ns).count w) u) := by
  have h := foldl_processOne_in_links ns c order emptyGraphAcc w
  simpa [buildGraph, emptyGraphAcc] using h

/-- Every link kept by the extractor is a member of the node set. -/
theorem parse_outgoing_links_mem (text : String) (ns : List String) :
    ∀ x ∈ parse_outgoing_links text ns, x ∈ ns := by
  intro x hx
  rw [parse_outgoing_links, parseLinesAux_eq_amended] at hx
  rcases List.mem_filterMap.mp hx with ⟨line, _, hline⟩
  by_cases hc : (match hrefSearch line.data with
      | some g => pyStrip (String.mk g)
      | none => line) ∈ ns
  · simp only [if_pos hc] at hline
    cases hline
    exact hc
  · simp [if_neg hc] at hline

/-- The two sum identities of the aggregation result, for a duplicate-free node
list processed in any order that is a permutation of it. -/
theorem buildGraph_sums (ns : List String) (c : String → String) (o : List String)
    (hnd : ns.Nodup) (ho : o.Perm ns) :
    (ns.map (buildGraph ns c o).out_degree).sum = (ns.map (buildGraph ns c o).in_counts).sum ∧
      (ns.map (buildGraph ns c o).in_counts).sum = reference_edge_count ns c := by
  have hout : (ns.map (buildGraph ns c o).out_degree).sum = reference_edge_count ns c := by
    unfold reference_edge_count
    congr 1
    apply List.map_congr_left
    intro v hv
    rw [buildGraph_out_degree, if_pos (ho.mem_iff.mpr hv)]
  have hin : (ns.map (buildGraph ns c o).in_counts).sum = reference_edge_count ns c := by
    have hforms : ns.map (buildGraph ns c o).in_counts =
        ns.map (fun v => (o.map (fun u => (parse_outgoing_links (c u) ns).count v)).sum) :=
      List.map_congr_left (fun v _ => buildGraph_in_counts ns c o v)
    rw [hforms, sum_sum_comm ns o (fun v u => (parse_outgoing_links (c u) ns).count v)]
    have hinner : ∀ u, (ns.map (fun v => (parse_outgoing_links (c u) ns).count v)).sum =
        (parse_outgoing_links (c u) ns).length := fun u =>
      sum_map_count_len _ ns hnd (parse_outgoing_links_mem (c u) ns)
    rw [List.map_congr_left (fun u _ => hinner u)]
    exact ((ho.map _).sum_eq)
  exact ⟨hout.trans hin.symm, hin⟩

/-- C5: for every run of either pipeline mode the returned triple satisfies
`len(in_links[v]) == in_counts[v]`, for every `v`. -/
theorem pipelines_in_links_length_matches_in_counts (listing : List String)
    (limit : Option ℕ) (contents : String → String) (o₁ o₂ : List String) :
    onPipelineResult (fun r => ∀ v, (r.2.2.2 v).length = r.2.2.1 v)
        (compute_in_out_counts_streaming listing limit contents o₁) ∧
      onPipelineResult (fun r => ∀ v, (r.2.2.2 v).length = r.2.2.1 v)
        (compute_in_out_counts_download_then_parse listing limit contents o₂) := by
  have main : ∀ (o : List String) (v : String),
      ((buildGraph (pipelineNodes listing limit) contents o).in_links v).length =
        (buildGraph (pipelineNodes listing limit) contents o).in_counts v := by
    intro o v
    rw [buildGraph_in_links, buildGraph_in_counts, List.length_flatMap]
    congr 1
    exact List.map_congr_left (fun u _ => by simp [Function.comp])
  constructor
  · unfold compute_in_out_counts_streaming
    by_cases hemp : (listNodes listing).isEmpty
    · simp [hemp, onPipelineResult]
    · rw [if_neg hemp]
      simp only [onPipelineResult]
      exact fun v => main o₁ v
  · unfold compute_in_out_counts_download_then_parse
    by_cases hemp : (listNodes listing).isEmpty
    · simp [hemp, onPipelineResult]
    · rw [if_neg hemp]
      simp only [onPipelineResult]
      exact fun v => main o₂ v

/-- C6: for every run of either pipeline mode, the out-degrees summed over the
node list equal the in-counts summed over the node list, and both equal the
edge total of the reference single-threaded computation. -/
theorem pipelines_edge_sum_invariant (listing : List String) (limit : Option ℕ)
    (contents : String → String) (o₁ o₂ : List String) (hnd : listing.Nodup)
    (h1 : o₁.Perm (pipelineNodes listing limit)) (h2 : o₂.Perm (pipelineNodes listing limit)) :
    onPipelineResult (fun r => (r.1.map r.2.1).sum = (r.1.map r.2.2.1).sum ∧
        (r.1.map r.2.2.1).sum = reference_edge_count r.1 contents)
        (compute_in_out_counts_streaming listing limit contents o₁) ∧
      onPipelineResult (fun r => (r.1.map r.2.1).sum = (r.1.map r.2.2.1).sum ∧
        (r.1.map r.2.2.1).sum = reference_edge_count r.1 contents)
        (compute_in_out_counts_download_then_parse listing limit contents o₂) := by
  have hnodes : (pipelineNodes listing limit).Nodup := by
    have hsort : (listNodes listing).Nodup :=
      ((List.mergeSort_perm listing _).symm).nodup hnd
    cases limit with
    | none => exact hsort
    | some k => exact hsort.sublist (List.take_sublist k (listNodes listing))
  constructor
  · unfold compute_in_out_counts_streaming
    by_cases hemp : (listNodes listing).isEmpty
    · simp [hemp, onPipelineResult]
    · rw [if_neg hemp]
      simp only [onPipelineResult]
      exact buildGraph_sums _ contents o₁ hnodes h1
  · unfold compute_in_out_counts_download_then_parse
    by_cases hemp : (listNodes listing).isEmpty
    · simp [hemp, onPipelineResult]
    · rw [if_neg hemp]
      simp only [onPipelineResult]
      exact buildGraph_sums _ contents o₂ hnodes h2

/-- C6 witness: the invariant instantiated on a concrete two-node run. -/
theorem pipelines_edge_sum_invariant_witness :
    (["a", "b"] : List String).Nodup ∧
      (["a", "b"] : List String).Perm (pipelineNodes ["a", "b"] none) ∧
      (["b", "a"] : List String).Perm (pipelineNodes ["a", "b"] none) ∧
      (onPipelineResult (fun r => (r.1.map r.2.1).sum = (r.1.map r.2.2.1).sum ∧
          (r.1.map r.2.2.1).sum = reference_edge_count r.1 (fun x => if x = "a" then "b" else "a"))
          (compute_in_out_counts_streaming ["a", "b"] none
            (fun x => if x = "a" then "b" else "a") ["a", "b"]) ∧
        onPipelineResult (fun r => (r.1.map r.2.1).sum = (r.1.map r.2.2.1).sum ∧
          (r.1.map r.2.2.1).sum = reference_edge_count r.1 (fun x => if x = "a" then "b" else "a"))
          (compute_in_out_counts_download_then_parse ["a", "b"] none
            (fun x => if x = "a" then "b" else "a") ["b", "a"])) := by
  have hnd : (["a", "b"] : List String).Nodup := by decide
  have h1 : (["a", "b"] : List String).Perm (pipelineNodes ["a", "b"] none) :=
    (List.mergeSort_perm ["a", "b"] _).symm
  have h2 : (["b", "a"] : List String).Perm (pipelineNodes ["a", "b"] none) :=
    (List.Perm.swap "a" "b" []).trans (List.mergeSort_perm ["a", "b"] _).symm
  exact ⟨hnd, h1, h2,
    pipelines_edge_sum_invariant ["a", "b"] none (fun x => if x = "a" then "b" else "a")
      ["a", "b"] ["b", "a"] hnd h1 h2⟩

/-- C4: given the same listing, the same retrieved contents and the same limit,
the streaming and the download-then-parse pipelines return the same node list,
identical `out_degree` and `in_counts` maps, and per-node `in_links` lists that
are equal as multisets, whatever completion orders the two runs exhibit. -/
theorem streaming_equiv_download_then_parse (listing : List String) (limit : Option ℕ)
    (contents : String → String) (o₁ o₂ : List String)
    (h1 : o₁.Perm (pipelineNodes listing limit)) (h2 : o₂.Perm (pipelineNodes listing limit)) :
    pipelineResultsEquiv (compute_in_out_counts_streaming listing limit contents o₁)
      (compute_in_out_counts_download_then_parse listing limit contents o₂) := by
  have h12 : o₁.Perm o₂ := h1.trans h2.symm
  unfold compute_in_out_counts_streaming compute_in_out_counts_download_then_parse
  by_cases hemp : (listNodes listing).isEmpty
  · simp [hemp, pipelineResultsEquiv]
  · rw [if_neg hemp, if_neg hemp]
    simp only [pipelineResultsEquiv]
    refine ⟨by trivial, ?_, ?_, ?_⟩
    · intro v
      rw [buildGraph_out_degree, buildGraph_out_degree]
      by_cases hv : v ∈ o₁
      · rw [if_pos hv, if_pos (h12.mem_iff.mp hv)]
      · rw [if_neg hv, if_neg (fun hx => hv (h12.mem_iff.mpr hx))]
    · intro v
      rw [buildGraph_in_counts, buildGraph_in_counts]
      exact (h12.map _).sum_eq
    · intro v
      rw [buildGraph_in_links, buildGraph_in_links]
      exact h12.flatMap_right _

/-- C4 witness: the equivalence instantiated on a concrete two-node run with
two different completion orders. -/
theorem streaming_equiv_download_then_parse_witness :
    (["a", "b"] : List String).Perm (pipelineNodes ["a", "b"] none) ∧
      (["b", "a"] : List String).Perm (pipelineNodes ["a", "b"] none) ∧
      pipelineResultsEquiv
        (compute_in_out_counts_streaming ["a", "b"] none
          (fun x => if x = "a" then "b" else "a") ["a", "b"])
        (compute_in_out_counts_download_then_parse ["a", "b"] none
          (fun x => if x = "a" then "b" else "a") ["b", "a"]) := by
  have h1 : (["a", "b"] : List String).Perm (pipelineNodes ["a", "b"] none) :=
    (List.mergeSort_perm ["a", "b"] _).symm
  have h2 : (["b", "a"] : List String).Perm (pipelineNodes ["a", "b"] none) :=
    (List.Perm.swap "a" "b" []).trans (List.mergeSort_perm ["a", "b"] _).symm
  exact ⟨h1, h2, streaming_equiv_download_then_parse ["a", "b"] none
    (fun x => if x = "a" then "b" else "a") ["a", "b"] ["b", "a"] h1 h2⟩

/-! ## Characterisation of the PageRank loop -/

theorem pagerankIter_exhaust (nodes : List String) (il : String → List String)
    (od : String → ℕ) (d b tol : ℚ) (s fuel : ℕ)
    (h : ∀ k, k < fuel → ¬ deltaAt nodes il od d b (s + k) < tol) :
    pagerankIter nodes il od d b tol (scoresAfter nodes il od d b s) s fuel =
      (scoresAfter nodes il od d b (s + fuel), s + fuel, false) := by
  induction fuel generalizing s with
  | zero => simp [pagerankIter]
  | succ fuel ih =>
    have h0 : ¬ deltaAt nodes il od d b s < tol := by
      have := h 0 (Nat.succ_pos _)
      simpa using this
    rw [pagerankIter]
    rw [show pagerankStep nodes il od d b (scoresAfter nodes il od d b s) =
        scoresAfter nodes il od d b (s + 1) from rfl]
    rw [show l1delta nodes (scoresAfter nodes il od d b (s + 1))
          (scoresAfter nodes il od d b s) = deltaAt nodes il od d b s from rfl]
    rw [if_neg h0]
    have h' : ∀ k, k < fuel → ¬ deltaAt nodes il od d b (s + 1 + k) < tol := by
      intro k hk
      have := h (k + 1) (by omega)
      have harith : s + (k + 1) = s + 1 + k := by omega
      rwa [harith] at this
    have := ih (s + 1) h'
    rwa [show s + 1 + fuel = s + (fuel + 1) from by omega] at this

theorem pagerankIter_conv (nodes : List String) (il : String → List String)
    (od : String → ℕ) (d b tol : ℚ) (s fuel k : ℕ) (hk : k < fuel)
    (hc : deltaAt nodes il od d b (s + k) < tol)
    (hmin : ∀ j, j < k → ¬ deltaAt nodes il od d b (s + j) < tol) :
    pagerankIter nodes il od d b tol (scoresAfter nodes il od d b s) s fuel =
      (scoresAfter nodes il od d b (s + k + 1), s + k + 1,
        decide ((1 : ℚ) / 1000 <
          |sumScores nodes (scoresAfter nodes il od d b (s + k + 1)) - 1|)) := by
  induction fuel generalizing s k with
  | zero => omega
  | succ fuel ih =>
    rw [pagerankIter]
    rw [show pagerankStep nodes il od d b (scoresAfter nodes il od d b s) =
        scoresAfter nodes il od d b (s + 1) from rfl]
    rw [show l1delta nodes (scoresAfter nodes il od d b (s + 1))
          (scoresAfter nodes il od d b s) = deltaAt nodes il od d b s from rfl]
    cases k with
    | zero =>
      have hc0 : deltaAt nodes il od d b s < tol := by simpa using hc
      rw [if_pos hc0]
    | succ j =>
      have h0 : ¬ deltaAt nodes il od d b s < tol := by
        have := hmin 0 (Nat.succ_pos _)
        simpa using this
      rw [if_neg h0]
      have hc' : deltaAt nodes il od d b (s + 1 + j) < tol := by
        rwa [show s + 1 + j = s + (j + 1) from by omega]
      have hmin' : ∀ i, i < j → ¬ deltaAt nodes il od d b (s + 1 + i) < tol := by
        intro i hi
        have := hmin (i + 1) (by omega)
        rwa [show s + (i + 1) = s + 1 + i from by omega] at this
      have := ih (s + 1) j (by omega) hc' hmin'
      rwa [show s + 1 + j + 1 = s + (j + 1) + 1 from by omega] at this

/-- C1: on a graph whose dangling nodes never occur in an `in_links` list,
the solver starts from the uniform map `1/n` and each iteration computes
`new_score[a] = b/n + d * (Σ_{t ∈ in_links[a]} score[t]/out_degree[t] +
dangling_share)` with `dangling_share` the dangling score mass divided by `n`. -/
theorem pagerank_update_formula (nodes : List String) (il : String → List String)
    (od : String → ℕ) (d b : ℚ)
    (h1 : ∀ a ∈ nodes, ∀ t ∈ il a, od t ≠ 0) (hn : 1 ≤ nodes.length) :
    (∀ u ∈ nodes, scoresAfter nodes il od d b 0 u = 1 / (nodes.length : ℚ)) ∧
    (∀ k : ℕ, ∀ a ∈ nodes,
      scoresAfter nodes il od d b (k + 1) a =
        b / (nodes.length : ℚ) +
          d * (((il a).map (fun t => scoresAfter nodes il od d b k t / (od t : ℚ))).sum +
            ((nodes.filter (fun u => od u == 0)).map (scoresAfter nodes il od d b k)).sum /
              (nodes.length : ℚ))) := by
  constructor
  · intro u _
    rfl
  · intro k a ha
    have hmap : (il a).map
          (fun t => if 0 < od t then scoresAfter nodes il od d b k t / (od t : ℚ) else 0) =
        (il a).map (fun t => scoresAfter nodes il od d b k t / (od t : ℚ)) :=
      List.map_congr_left (fun t ht => by rw [if_pos (Nat.pos_of_ne_zero (h1 a ha t ht))])
    show pagerankStep nodes il od d b (scoresAfter nodes il od d b k) a = _
    unfold pagerankStep dangling_mass
    rw [hmap]

/-- C1 witness: the update formula on the one-node graph with a self-loop. -/
theorem pagerank_update_formula_witness :
    ((∀ a ∈ (["a"] : List String), ∀ t ∈ (fun _ => ["a"] : String → List String) a,
        (fun _ => 1 : String → ℕ) t ≠ 0) ∧ 1 ≤ (["a"] : List String).length) ∧
    ((∀ u ∈ (["a"] : List String),
        scoresAfter ["a"] (fun _ => ["a"]) (fun _ => 1) (17/20) (3/20) 0 u =
          1 / ((["a"] : List String).length : ℚ)) ∧
    (∀ k : ℕ, ∀ a ∈ (["a"] : List String),
      scoresAfter ["a"] (fun _ => ["a"]) (fun _ => 1) (17/20) (3/20) (k + 1) a =
        (3/20) / ((["a"] : List String).length : ℚ) +
          (17/20) * ((((fun _ => ["a"] : String → List String) a).map
              (fun t => scoresAfter ["a"] (fun _ => ["a"]) (fun _ => 1) (17/20) (3/20) k t /
                (((fun _ => 1 : String → ℕ) t : ℕ) : ℚ))).sum +
            ((["a"].filter (fun u => (fun _ => 1 : String → ℕ) u == 0)).map
                (scoresAfter ["a"] (fun _ => ["a"]) (fun _ => 1) (17/20) (3/20) k)).sum /
              ((["a"] : List String).length : ℚ)))) :=
  ⟨⟨by decide, by decide⟩,
    pagerank_update_formula ["a"] (fun _ => ["a"]) (fun _ => 1) (17/20) (3/20)
      (by decide) (by decide)⟩

/-- C2: with `n ≥ 1`, the solver stops at the first iteration whose delta is
strictly below the threshold, returning the scores adopted at that iteration
together with its 1-based index; if none of the first `M` iterations satisfies
`delta < ε` it stops after `M` iterations and returns `(scores after M, M)`. -/
theorem pagerank_stops_at_first_convergence (nodes : List String) (il : String → List String)
    (od : String → ℕ) (d b tol : ℚ) (M : ℕ) (h : 1 ≤ nodes.length) :
    ((∀ k, k < M → ¬ deltaAt nodes il od d b k < tol) →
      (iterative_pagerank nodes il od d b tol M).1 = scoresAfter nodes il od d b M ∧
        (iterative_pagerank nodes il od d b tol M).2.1 = M) ∧
    (∀ k, k < M → deltaAt nodes il od d b k < tol →
      (∀ j, j < k → ¬ deltaAt nodes il od d b j < tol) →
      (iterative_pagerank nodes il od d b tol M).1 = scoresAfter nodes il od d b (k + 1) ∧
        (iterative_pagerank nodes il od d b tol M).2.1 = k + 1) := by
  have hne : ¬ nodes.length = 0 := by omega
  constructor
  · intro hall
    have hres := pagerankIter_exhaust nodes il od d b tol 0 M
      (by intro k hk; simpa using hall k hk)
    rw [iterative_pagerank, if_neg hne,
      show pr_init nodes = scoresAfter nodes il od d b 0 from rfl, hres]
    simp
  · intro k hk hc hmin
    have hres := pagerankIter_conv nodes il od d b tol 0 M k hk (by simpa using hc)
      (by intro j hj; simpa using hmin j hj)
    rw [iterative_pagerank, if_neg hne,
      show pr_init nodes = scoresAfter nodes il od d b 0 from rfl, hres]
    simp

/-- C2 witness: the stopping rule instantiated on the single-node graph with
the default parameters. -/
theorem pagerank_stops_at_first_convergence_witness :
    (1 ≤ (["u"] : List String).length) ∧
    (((∀ k, k < 200 →
        ¬ deltaAt ["u"] (fun _ => []) (fun _ => 0) (17/20) (3/20) k < 1/200) →
      (iterative_pagerank ["u"] (fun _ => []) (fun _ => 0) (17/20) (3/20) (1/200) 200).1 =
          scoresAfter ["u"] (fun _ => []) (fun _ => 0) (17/20) (3/20) 200 ∧
        (iterative_pagerank ["u"] (fun _ => []) (fun _ => 0) (17/20) (3/20) (1/200) 200).2.1 =
          200) ∧
    (∀ k, k < 200 → deltaAt ["u"] (fun _ => []) (fun _ => 0) (17/20) (3/20) k < 1/200 →
      (∀ j, j < k → ¬ deltaAt ["u"] (fun _ => []) (fun _ => 0) (17/20) (3/20) j < 1/200) →
      (iterative_pagerank ["u"] (fun _ => []) (fun _ => 0) (17/20) (3/20) (1/200) 200).1 =
          scoresAfter ["u"] (fun _ => []) (fun _ => 0) (17/20) (3/20) (k + 1) ∧
        (iterative_pagerank ["u"] (fun _ => []) (fun _ => 0) (17/20) (3/20) (1/200) 200).2.1 =
          k + 1)) :=
  ⟨by decide,
    pagerank_stops_at_first_convergence ["u"] (fun _ => []) (fun _ => 0)
      (17/20) (3/20) (1/200) 200 (by decide)⟩

/-- C7 (amended): the non-fatal sum post-check runs only on the convergence
exit: when the run converges at iteration `k + 1` the warning flag equals the
check `|Σ score − 1| > 1e-3` and the scores and iteration count are returned
unchanged; when the run exhausts all `M` iterations without converging, no sum
check is performed and no warning is emitted. -/
theorem pagerank_warning_only_on_convergence (nodes : List String)
    (il : String → List String) (od : String → ℕ) (d b tol : ℚ) (M : ℕ)
    (h : 1 ≤ nodes.length) :
    ((∀ k, k < M → ¬ deltaAt nodes il od d b k < tol) →
      (iterative_pagerank nodes il od d b tol M).2.2 = false) ∧
    (∀ k, k < M → deltaAt nodes il od d b k < tol →
      (∀ j, j < k → ¬ deltaAt nodes il od d b j < tol) →
      (iterative_pagerank nodes il od d b tol M).2.2 =
          decide ((1 : ℚ) / 1000 <
            |sumScores nodes (scoresAfter nodes il od d b (k + 1)) - 1|) ∧
        (iterative_pagerank nodes il od d b tol M).1 =
          scoresAfter nodes il od d b (k + 1) ∧
        (iterative_pagerank nodes il od d b tol M).2.1 = k + 1) := by
  have hne : ¬ nodes.length = 0 := by omega
  constructor
  · intro hall
    have hres := pagerankIter_exhaust nodes il od d b tol 0 M
      (by intro k hk; simpa using hall k hk)
    rw [iterative_pagerank, if_neg hne,
      show pr_init nodes = scoresAfter nodes il od d b 0 from rfl, hres]
  · intro k hk hc hmin
    have hres := pagerankIter_conv nodes il od d b tol 0 M k hk (by simpa using hc)
      (by intro j hj; simpa using hmin j hj)
    rw [iterative_pagerank, if_neg hne,
      show pr_init nodes = scoresAfter nodes il od d b 0 from rfl, hres]
    simp

/-- C7 witness: the amended behaviour on the single-node graph with a
self-degree of 1 and iteration cap 1. -/
theorem pagerank_warning_only_on_convergence_witness :
    (1 ≤ (["u"] : List String).length) ∧
    (((∀ k, k < 1 → ¬ deltaAt ["u"] (fun _ => []) (fun _ => 1) (17/20) (3/20) k < 1/200) →
      (iterative_pagerank ["u"] (fun _ => []) (fun _ => 1) (17/20) (3/20) (1/200) 1).2.2 =
        false) ∧
    (∀ k, k < 1 → deltaAt ["u"] (fun _ => []) (fun _ => 1) (17/20) (3/20) k < 1/200 →
      (∀ j, j < k → ¬ deltaAt ["u"] (fun _ => []) (fun _ => 1) (17/20) (3/20) j < 1/200) →
      (iterative_pagerank ["u"] (fun _ => []) (fun _ => 1) (17/20) (3/20) (1/200) 1).2.2 =
          decide ((1 : ℚ) / 1000 <
            |sumScores ["u"]
                (scoresAfter ["u"] (fun _ => []) (fun _ => 1) (17/20) (3/20) (k + 1)) - 1|) ∧
        (iterative_pagerank ["u"] (fun _ => []) (fun _ => 1) (17/20) (3/20) (1/200) 1).1 =
          scoresAfter ["u"] (fun _ => []) (fun _ => 1) (17/20) (3/20) (k + 1) ∧
        (iterative_pagerank ["u"] (fun _ => []) (fun _ => 1) (17/20) (3/20) (1/200) 1).2.1 =
          k + 1)) :=
  ⟨by decide,
    pagerank_warning_only_on_convergence ["u"] (fun _ => []) (fun _ => 1)
      (17/20) (3/20) (1/200) 1 (by decide)⟩

/-- C7 counterexample: a run that exhausts its iteration cap with
`|Σ score − 1| = 0.85 > 1e-3` returns without emitting any warning, against
the claim that the warning is emitted on every termination with a deviating
sum. -/
theorem pagerank_no_warning_on_exhaustion :
    (iterative_pagerank ["u"] (fun _ => []) (fun _ => 1) (17/20) (3/20) (1/200) 1).2.2 =
        false ∧
      (1 : ℚ) / 1000 <
        |sumScores ["u"]
            (iterative_pagerank ["u"] (fun _ => []) (fun _ => 1) (17/20) (3/20) (1/200) 1).1 -
          1| := by
  have hnc : ∀ k, k < 1 →
      ¬ deltaAt ["u"] (fun _ => []) (fun _ => 1) (17/20) (3/20) (0 + k) < 1/200 := by
    intro k hk
    have hk0 : k = 0 := by omega
    subst hk0
    norm_num [deltaAt, l1delta, scoresAfter, pagerankStep, dangling_mass, pr_init]
    rw [abs_of_nonneg (by norm_num : (0 : ℚ) ≤ 17/20)]
    norm_num
  have hres := pagerankIter_exhaust ["u"] (fun _ => []) (fun _ => 1) (17/20) (3/20) (1/200)
    0 1 hnc
  rw [iterative_pagerank, if_neg (by simp),
    show pr_init ["u"] = scoresAfter ["u"] (fun _ => []) (fun _ => 1) (17/20) (3/20) 0 from rfl,
    hres]
  refine ⟨rfl, ?_⟩
  norm_num [sumScores, scoresAfter, pagerankStep, dangling_mass, pr_init]
  rw [abs_of_nonneg (by norm_num : (0 : ℚ) ≤ 17/20)]
  norm_num

/-- C9: on the single-node graph with no edges and the default parameters the
solver returns score 1.0 after exactly one iteration. -/
theorem pagerank_single_node_returns_one :
    (iterative_pagerank ["u"] (fun _ => []) (fun _ => 0) (17/20) (3/20) (1/200) 200).1 "u" =
        1 ∧
      (iterative_pagerank ["u"] (fun _ => []) (fun _ => 0) (17/20) (3/20) (1/200) 200).2.1 =
        1 := by
  have hc : deltaAt ["u"] (fun _ => []) (fun _ => 0) (17/20) (3/20) (0 + 0) < 1/200 := by
    norm_num [deltaAt, l1delta, scoresAfter, pagerankStep, dangling_mass, pr_init]
  have hres := pagerankIter_conv ["u"] (fun _ => []) (fun _ => 0) (17/20) (3/20) (1/200)
    0 200 0 (by norm_num) hc (fun j hj => absurd hj (Nat.not_lt_zero j))
  rw [iterative_pagerank, if_neg (by simp),
    show pr_init ["u"] = scoresAfter ["u"] (fun _ => []) (fun _ => 0) (17/20) (3/20) 0 from rfl,
    hres]
  refine ⟨?_, rfl⟩
  norm_num [scoresAfter, pagerankStep, dangling_mass, pr_init]

/-- C10: called with an empty node list, the solver returns the empty score
map (the all-zero map of the embedding) and iteration count 0, with no
warning, whatever the other arguments are. -/
theorem pagerank_empty_nodes (il : String → List String) (od : String → ℕ)
    (d b tol : ℚ) (M : ℕ) :
    iterative_pagerank [] il od d b tol M = (fun _ => 0, 0, false) := rfl

/-! ## Score range invariant of the solver (C8) -/

theorem sum_map_filter {α M : Type} [AddCommMonoid M] (l : List α) (p : α → Bool) (f : α → M) :
    ((l.filter p).map f).sum = (l.map (fun x => if p x then f x else 0)).sum := by
  induction l with
  | nil => rfl
  | cons x l ih =>
    rw [List.filter_cons]
    by_cases h : p x
    · simp [h, ih]
    · simp [h, ih]

theorem pagerankStep_nonneg (nodes : List String) (il : String → List String)
    (od : String → ℕ) (d b : ℚ) (pr : String → ℚ) (hd : 0 ≤ d) (hb : 0 ≤ b)
    (hwf : ∀ a ∈ nodes, ∀ t ∈ il a, t ∈ nodes) (hpr : ∀ u ∈ nodes, 0 ≤ pr u) :
    ∀ a ∈ nodes, 0 ≤ pagerankStep nodes il od d b pr a := by
  intro a ha
  unfold pagerankStep
  have hn0 : (0 : ℚ) ≤ (nodes.length : ℚ) := Nat.cast_nonneg _
  have hs : 0 ≤ ((il a).map
      (fun t => if 0 < od t then pr t / (od t : ℚ) else 0)).sum := by
    apply List.sum_nonneg
    intro x hx
    rcases List.mem_map.mp hx with ⟨t, ht, rfl⟩
    by_cases h : 0 < od t
    · rw [if_pos h]
      exact div_nonneg (hpr t (hwf a ha t ht)) (Nat.cast_nonneg _)
    · rw [if_neg h]
  have hdm : 0 ≤ dangling_mass nodes od pr := by
    apply List.sum_nonneg
    intro x hx
    rcases List.mem_map.mp hx with ⟨t, ht, rfl⟩
    exact hpr t (List.mem_of_mem_filter ht)
  exact add_nonneg (div_nonneg hb hn0)
    (mul_nonneg hd (add_nonneg hs (div_nonneg hdm hn0)))


theorem pagerankStep_sum_one (nodes : List String) (il : String → List String)
    (od : String → ℕ) (d b : ℚ) (pr : String → ℚ)
    (hnd : nodes.Nodup) (hn : 1 ≤ nodes.length)
    (hwf : ∀ a ∈ nodes, ∀ t ∈ il a, t ∈ nodes)
    (hcons : ∀ t ∈ nodes, od t = (nodes.map (fun a => (il a).count t)).sum)
    (hdb : d + b = 1) (hsum1 : sumScores nodes pr = 1) :
    sumScores nodes (pagerankStep nodes il od d b pr) = 1 := by
  have hlen : (nodes.length : ℚ) ≠ 0 := by
    have h0 : nodes.length ≠ 0 := by omega
    exact_mod_cast h0
  have hstep : sumScores nodes (pagerankStep nodes il od d b pr) =
      (nodes.map (fun _ => b / (nodes.length : ℚ))).sum +
        (nodes.map (fun a =>
          d * (((il a).map (fun t => if 0 < od t then pr t / (od t : ℚ) else 0)).sum +
            dangling_mass nodes od pr / (nodes.length : ℚ)))).sum := by
    unfold sumScores pagerankStep
    exact sum_map_add nodes _ _
  have hconst : (nodes.map (fun _ => b / (nodes.length : ℚ))).sum = b := by
    rw [List.map_const', List.sum_replicate, nsmul_eq_mul, mul_div_cancel₀ b hlen]
  have hfactor : (nodes.map (fun a =>
        d * (((il a).map (fun t => if 0 < od t then pr t / (od t : ℚ) else 0)).sum +
          dangling_mass nodes od pr / (nodes.length : ℚ)))).sum =
      d * (nodes.map (fun a =>
        ((il a).map (fun t => if 0 < od t then pr t / (od t : ℚ) else 0)).sum +
          dangling_mass nodes od pr / (nodes.length : ℚ))).sum :=
    List.sum_map_mul_left nodes _ d
  have hsplit2 : (nodes.map (fun a =>
        ((il a).map (fun t => if 0 < od t then pr t / (od t : ℚ) else 0)).sum +
          dangling_mass nodes od pr / (nodes.length : ℚ))).sum =
      (nodes.map (fun a =>
        ((il a).map (fun t => if 0 < od t then pr t / (od t : ℚ) else 0)).sum)).sum +
        (nodes.map (fun _ => dangling_mass nodes od pr / (nodes.length : ℚ))).sum :=
    sum_map_add nodes _ _
  have hdmconst : (nodes.map (fun _ =>
        dangling_mass nodes od pr / (nodes.length : ℚ))).sum = dangling_mass nodes od pr := by
    rw [List.map_const', List.sum_replicate, nsmul_eq_mul,
      mul_div_cancel₀ (dangling_mass nodes od pr) hlen]
  have hinner : ∀ t ∈ nodes,
      (nodes.map (fun a =>
        ((il a).count t : ℚ) * (if 0 < od t then pr t / (od t : ℚ) else 0))).sum =
        if 0 < od t then pr t else 0 := by
    intro t ht
    rw [List.sum_map_mul_right nodes (fun a => ((il a).count t : ℚ))
      (if 0 < od t then pr t / (od t : ℚ) else 0)]
    have hcastsum : (nodes.map (fun a => ((il a).count t : ℚ))).sum = ((od t : ℕ) : ℚ) := by
      have h1 : ((nodes.map (fun a => (il a).count t)).sum : ℚ) =
          (nodes.map (fun a => ((il a).count t : ℚ))).sum := by
        rw [Nat.cast_list_sum, List.map_map]
        rfl
      rw [← h1, ← hcons t ht]
    rw [hcastsum]
    by_cases h : 0 < od t
    · rw [if_pos h, if_pos h]
      exact mul_div_cancel₀ (pr t) (Nat.cast_ne_zero.mpr (by omega))
    · rw [if_neg h, if_neg h, mul_zero]
  have hlinks : (nodes.map (fun a =>
        ((il a).map (fun t => if 0 < od t then pr t / (od t : ℚ) else 0)).sum)).sum =
      (nodes.map (fun t => if 0 < od t then pr t else 0)).sum :=
    calc (nodes.map (fun a =>
          ((il a).map (fun t => if 0 < od t then pr t / (od t : ℚ) else 0)).sum)).sum
        = (nodes.map (fun a => (nodes.map (fun t =>
            ((il a).count t : ℚ) * (if 0 < od t then pr t / (od t : ℚ) else 0))).sum)).sum :=
          congrArg List.sum (List.map_congr_left (fun a ha =>
            sum_map_count_mul (il a) nodes _ hnd (hwf a ha)))
      _ = (nodes.map (fun t => (nodes.map (fun a =>
            ((il a).count t : ℚ) * (if 0 < od t then pr t / (od t : ℚ) else 0))).sum)).sum :=
          sum_sum_comm nodes nodes _
      _ = (nodes.map (fun t => if 0 < od t then pr t else 0)).sum :=
          congrArg List.sum (List.map_congr_left hinner)
  have hdangling : dangling_mass nodes od pr =
      (nodes.map (fun t => if od t = 0 then pr t else 0)).sum := by
    unfold dangling_mass
    rw [sum_map_filter nodes (fun u => od u == 0) pr]
    exact congrArg List.sum (List.map_congr_left (fun t _ => by simp only [beq_iff_eq]))
  have hcombine : (nodes.map (fun t => if 0 < od t then pr t else 0)).sum +
      (nodes.map (fun t => if od t = 0 then pr t else 0)).sum = sumScores nodes pr := by
    rw [← sum_map_add nodes (fun t => if 0 < od t then pr t else 0)
      (fun t => if od t = 0 then pr t else 0)]
    unfold sumScores
    refine congrArg List.sum (List.map_congr_left ?_)
    intro t _
    by_cases h : 0 < od t
    · have hne : ¬ od t = 0 := by omega
      rw [if_pos h, if_neg hne, add_zero]
    · have he : od t = 0 := by omega
      rw [if_neg h, if_pos he, zero_add]
  rw [hstep, hconst, hfactor, hsplit2, hdmconst, hlinks, hdangling, hcombine, hsum1, mul_one]
  linarith [hdb]

theorem pagerankIter_scores_inv (nodes : List String) (il : String → List String)
    (od : String → ℕ) (d b tol : ℚ)
    (hnd : nodes.Nodup) (hn : 1 ≤ nodes.length)
    (hwf : ∀ a ∈ nodes, ∀ t ∈ il a, t ∈ nodes)
    (hcons : ∀ t ∈ nodes, od t = (nodes.map (fun a => (il a).count t)).sum)
    (hd : 0 ≤ d) (hb : 0 ≤ b) (hdb : d + b = 1) :
    ∀ (fuel done : ℕ) (pr : String → ℚ), (∀ u ∈ nodes, 0 ≤ pr u) →
      sumScores nodes pr = 1 →
      (∀ u ∈ nodes, 0 ≤ (pagerankIter nodes il od d b tol pr done fuel).1 u) ∧
        sumScores nodes (pagerankIter nodes il od d b tol pr done fuel).1 = 1 := by
  intro fuel
  induction fuel with
  | zero => exact fun done pr hpos hsum => ⟨hpos, hsum⟩
  | succ fuel ih =>
    intro done pr hpos hsum
    rw [pagerankIter]
    by_cases hlt : l1delta nodes (pagerankStep nodes il od d b pr) pr < tol
    · rw [if_pos hlt]
      exact ⟨pagerankStep_nonneg nodes il od d b pr hd hb hwf hpos,
        pagerankStep_sum_one nodes il od d b pr hnd hn hwf hcons hdb hsum⟩
    · rw [if_neg hlt]
      exact ih (done + 1) (pagerankStep nodes il od d b pr)
        (pagerankStep_nonneg nodes il od d b pr hd hb hwf hpos)
        (pagerankStep_sum_one nodes il od d b pr hnd hn hwf hcons hdb hsum)

/-- C8: on a consistent graph triple — in-link entries are nodes, each node's
out-degree equals its total number of occurrences across the in-link lists —
with at least one node, every score returned by the solver lies in `[0, 1]`
(for any damping `d ≥ 0` and base `b ≥ 0` with `d + b = 1`, which covers the
defaults `0.85`/`0.15`). -/
theorem pagerank_scores_in_unit_interval (nodes : List String) (il : String → List String)
    (od : String → ℕ) (d b tol : ℚ) (M : ℕ)
    (hnd : nodes.Nodup) (hn : 1 ≤ nodes.length)
    (hwf : ∀ a ∈ nodes, ∀ t ∈ il a, t ∈ nodes)
    (hcons : ∀ t ∈ nodes, od t = (nodes.map (fun a => (il a).count t)).sum)
    (hd : 0 ≤ d) (hb : 0 ≤ b) (hdb : d + b = 1) :
    ∀ u ∈ nodes, 0 ≤ (iterative_pagerank nodes il od d b tol M).1 u ∧
      (iterative_pagerank nodes il od d b tol M).1 u ≤ 1 := by
  have hne : ¬ nodes.length = 0 := by omega
  have hlen : (nodes.length : ℚ) ≠ 0 := by
    have h0 : nodes.length ≠ 0 := by omega
    exact_mod_cast h0
  have hinit_pos : ∀ u ∈ nodes, 0 ≤ pr_init nodes u := by
    intro u _
    exact div_nonneg zero_le_one (Nat.cast_nonneg _)
  have hinit_sum : sumScores nodes (pr_init nodes) = 1 := by
    unfold sumScores pr_init
    rw [List.map_const', List.sum_replicate, nsmul_eq_mul, mul_one_div,
      div_self hlen]
  have hres := pagerankIter_scores_inv nodes il od d b tol hnd hn hwf hcons hd hb hdb
    M 0 (pr_init nodes) hinit_pos hinit_sum
  intro u hu
  rw [iterative_pagerank, if_neg hne]
  refine ⟨hres.1 u hu, ?_⟩
  have hmem : (pagerankIter nodes il od d b tol (pr_init nodes) 0 M).1 u ∈
      nodes.map (pagerankIter nodes il od d b tol (pr_init nodes) 0 M).1 :=
    List.mem_map_of_mem _ hu
  have hbound := List.single_le_sum (l := nodes.map
      (pagerankIter nodes il od d b tol (pr_init nodes) 0 M).1) ?_ _ hmem
  · exact hbound.trans_eq hres.2
  · intro x hx
    rcases List.mem_map.mp hx with ⟨t, ht, rfl⟩
    exact hres.1 t ht

/-- C8 witness: the score bounds on the concrete two-node cycle graph. -/
theorem pagerank_scores_in_unit_interval_witness :
    ((["a", "b"] : List String).Nodup ∧ 1 ≤ (["a", "b"] : List String).length ∧
      (∀ a ∈ (["a", "b"] : List String),
        ∀ t ∈ (fun x => if x = "a" then ["b"] else ["a"] : String → List String) a,
          t ∈ (["a", "b"] : List String)) ∧
      (∀ t ∈ (["a", "b"] : List String),
        (fun _ => 1 : String → ℕ) t =
          ((["a", "b"] : List String).map (fun a =>
            ((fun x => if x = "a" then ["b"] else ["a"] : String → List String) a).count t)).sum) ∧
      (0 : ℚ) ≤ 1 ∧ (0 : ℚ) ≤ 0 ∧ (1 : ℚ) + 0 = 1) ∧
    (∀ u ∈ (["a", "b"] : List String),
      0 ≤ (iterative_pagerank ["a", "b"] (fun x => if x = "a" then ["b"] else ["a"])
          (fun _ => 1) 1 0 (1/200) 200).1 u ∧
        (iterative_pagerank ["a", "b"] (fun x => if x = "a" then ["b"] else ["a"])
          (fun _ => 1) 1 0 (1/200) 200).1 u ≤ 1) :=
  ⟨⟨by decide, by decide, by decide, by decide, zero_le_one, le_refl 0, add_zero 1⟩,
    pagerank_scores_in_unit_interval ["a", "b"] (fun x => if x = "a" then ["b"] else ["a"])
      (fun _ => 1) 1 0 (1/200) 200 (by decide) (by decide) (by decide) (by decide)
      zero_le_one (le_refl 0) (add_zero 1)⟩
